import Mathlib

/-!
Verification development for the ROT voice-currency bot (`src/main.py`).

The shallow embedding below translates the Python source into Lean:
pure helpers become Lean functions, the stateful command handlers become
functions from their inputs (persisted balance, the caller's entry in the
process-wide `active_sessions` map, the current wall-clock time, the
command arguments) to an `Except PyError` result describing the ledger
effect.  Wall-clock instants are rationals (Python datetimes carry
fractional seconds); a timestamp also records whether it is
timezone-aware, since Python raises `TypeError` when subtracting a naive
datetime from an aware one.

A central fact about the source: line 19 defines `SECONDS_PER_CURRENCY`,
but the voice-settlement handler and the balance/wager paths read the
name `SECS_PER_CURRENCY` (lines 409, 477, 612, 660, 714, 886, 935),
which is defined nowhere in the module, so evaluating those expressions
raises `NameError`.  The embedding models that read as an erroring
computation.
-/

namespace ROT

/-- Runtime errors the embedded Python code can raise: `NameError` (reading
an undefined global), `TypeError` (subtracting naive and aware datetimes),
`IndexError` (`list.pop()` on an empty list). -/
inductive PyError
  | nameError
  | typeError
  | indexError
deriving DecidableEq

/-- A Python datetime: an absolute instant in seconds plus whether the
object is timezone-aware (`tzinfo` set). -/
structure Timestamp where
  t : ℚ
  aware : Bool
deriving DecidableEq

/-- Python `datetime.datetime.now(datetime.timezone.utc)`: an aware instant. -/
def awareNow (now : ℚ) : Timestamp := ⟨now, true⟩

/-- Python `datetime.datetime.now()` with no argument: a naive instant. -/
def naiveNow (now : ℚ) : Timestamp := ⟨now, false⟩

/-- Python datetime subtraction: defined between two naive or two aware
datetimes, raises `TypeError` on a naive/aware mix. Result in seconds
(`.total_seconds()`). -/
def tsSub (a b : Timestamp) : Except PyError ℚ :=
  if a.aware = b.aware then .ok (a.t - b.t) else .error .typeError

/-- The guard `if join_time.tzinfo is None: join_time = join_time.replace(tzinfo=utc)`
(lines 404-405 and the copies of that guard in each command). -/
def coerceAware (j : Timestamp) : Timestamp :=
  if j.aware then j else { j with aware := true }

/-- Python `int(_)` on a rational: truncation toward zero. -/
def pyTrunc (q : ℚ) : Int := if 0 ≤ q then ⌊q⌋ else ⌈q⌉

/-- The module constant actually defined at line 19. -/
def SECONDS_PER_CURRENCY : ℚ := 60

/-- Reading the name `SECS_PER_CURRENCY`: the module never defines it
(only `SECONDS_PER_CURRENCY` exists), so every read raises `NameError`.
This is the name used at lines 409, 477, 612, 660, 714, 886 and 935. -/
def SECS_PER_CURRENCY : Except PyError ℚ := .error .nameError

/-- The pending-currency computation shared by `/balance` (lines 469-477),
`/blackjack` (606-612), `/pay` (654-660), `/roulette` (708-714) and
`/bet-horse` (880-886): aware `now`, tz-coercion of the stored join time,
a positivity guard on the elapsed seconds, then
`int(current_session_seconds / SECS_PER_CURRENCY)`. -/
def pendingCurrencyAware : Option Timestamp → ℚ → Except PyError Int
  | none, _ => .ok 0
  | some j0, now =>
      let j := coerceAware j0
      match tsSub (awareNow now) j with
      | .error e => .error e
      | .ok secs =>
          if 0 < secs then
            match SECS_PER_CURRENCY with
            | .error e => .error e
            | .ok spc => .ok (pyTrunc (secs / spc))
          else .ok 0

/-- The pending-currency computation in `/coinflip` (lines 932-935): it
uses naive `datetime.datetime.now()` (the join times stored in
`active_sessions` are always aware, written at lines 383, 398 and 416),
and has no positivity guard. -/
def pendingCurrencyCoinflip : Option Timestamp → ℚ → Except PyError Int
  | none, _ => .ok 0
  | some j, now =>
      match tsSub (naiveNow now) j with
      | .error e => .error e
      | .ok secs =>
          match SECS_PER_CURRENCY with
          | .error e => .error e
          | .ok spc => .ok (pyTrunc (secs / spc))

/-- Ledger-relevant outcome of a wager-initiating command. `accepted`
records the effective balance the validation saw and the stored balance
after the pessimistic debit `update_balance(user_id, -amount)`. -/
inductive WagerOutcome
  | rejectedNonPositive
  | rejectedInsufficient (reported : Int)
  | accepted (effective : Int) (newStored : Int)
deriving DecidableEq

/-- Command `/blackjack` up to and including the pessimistic debit
(lines 595-625): reject `amount <= 0`, compute the effective balance,
reject `amount > current_balance` reporting it, else debit `amount`. -/
def blackjackCommand (stored : Int) (session? : Option Timestamp) (now : ℚ)
    (amount : Int) : Except PyError WagerOutcome :=
  if amount ≤ 0 then .ok .rejectedNonPositive
  else
    match pendingCurrencyAware session? now with
    | .error e => .error e
    | .ok pending =>
        let current_balance := stored + pending
        if current_balance < amount then .ok (.rejectedInsufficient current_balance)
        else .ok (.accepted current_balance (stored - amount))

/-- Command `/roulette` up to and including the pessimistic debit (lines 700-727).
The command declares `amount` as `Range[int, 1]`, so the platform rejects
non-positive amounts before the handler runs; the body has no sign check. -/
def rouletteCommand (stored : Int) (session? : Option Timestamp) (now : ℚ)
    (amount : Int) : Except PyError WagerOutcome :=
  match pendingCurrencyAware session? now with
  | .error e => .error e
  | .ok pending =>
      let current_balance := stored + pending
      if current_balance < amount then .ok (.rejectedInsufficient current_balance)
      else .ok (.accepted current_balance (stored - amount))

/-- Command `/coinflip` up to and including the pessimistic debit (lines 923-948). -/
def coinflipCommand (stored : Int) (session? : Option Timestamp) (now : ℚ)
    (amount : Int) : Except PyError WagerOutcome :=
  if amount ≤ 0 then .ok .rejectedNonPositive
  else
    match pendingCurrencyCoinflip session? now with
    | .error e => .error e
    | .ok pending =>
        let current_balance := stored + pending
        if current_balance < amount then .ok (.rejectedInsufficient current_balance)
        else .ok (.accepted current_balance (stored - amount))

/-- Ledger-relevant outcome of `/bet-horse`. `accepted` records the
debited difference `cost_to_change` and the stored balance after
`update_balance(user_id, -cost_to_change)`. -/
inductive BetOutcome
  | rejectedNoConfig
  | rejectedLockout
  | rejectedInsufficient (reported : Int) (needed : Int)
  | accepted (cost : Int) (newStored : Int)
deriving DecidableEq

/-- Command `/bet-horse` up to and including the balance adjustment
(lines 851-903): config check, lockout-minute check, effective balance,
`cost_to_change = amount - old_bet_amount`, reject
`cost_to_change > current_balance`, else debit the difference. -/
def betHorseCommand (configSet lockedMinute : Bool) (stored : Int)
    (session? : Option Timestamp) (now : ℚ) (amount oldBetAmount : Int) :
    Except PyError BetOutcome :=
  if ¬configSet then .ok .rejectedNoConfig
  else if lockedMinute then .ok .rejectedLockout
  else
    match pendingCurrencyAware session? now with
    | .error e => .error e
    | .ok pending =>
        let current_balance := stored + pending
        let cost_to_change := amount - oldBetAmount
        if current_balance < cost_to_change then
          .ok (.rejectedInsufficient current_balance cost_to_change)
        else .ok (.accepted cost_to_change (stored - cost_to_change))

/-- Command `/balance` (lines 455-480): persisted balance plus the pending
session currency; the computation mutates nothing, so it is a pure
function of its inputs. -/
def balanceCommand (stored : Int) (session? : Option Timestamp) (now : ℚ) :
    Except PyError Int :=
  match pendingCurrencyAware session? now with
  | .error e => .error e
  | .ok pending => .ok (stored + pending)

theorem coerceAware_aware (j : Timestamp) : (coerceAware j).aware = true := by
  unfold coerceAware
  split
  · assumption
  · rfl

/-- On the aware commands, the pending-currency computation can only
    succeed with value 0: any positive elapsed time reaches the undefined
    name `SECS_PER_CURRENCY` and raises. -/
theorem pendingCurrencyAware_ok_eq_zero {session? : Option Timestamp} {now : ℚ}
    {p : Int} (h : pendingCurrencyAware session? now = .ok p) : p = 0 := by
  match session? with
  | none =>
      simp only [pendingCurrencyAware, Except.ok.injEq] at h
      omega
  | some j0 =>
      simp only [pendingCurrencyAware] at h
      rw [show tsSub (awareNow now) (coerceAware j0)
            = .ok (now - (coerceAware j0).t) by
          simp [tsSub, awareNow, coerceAware_aware]] at h
      simp only [SECS_PER_CURRENCY] at h
      split at h
      · exact absurd h (by simp)
      · simp only [Except.ok.injEq] at h
        omega

/-- On `/coinflip`, the pending-currency computation can only succeed
    with value 0: any stored (hence aware) join time makes the
    naive-minus-aware subtraction raise `TypeError`. -/
theorem pendingCurrencyCoinflip_ok_eq_zero {session? : Option Timestamp} {now : ℚ}
    {p : Int} (haware : ∀ j, session? = some j → j.aware = true)
    (h : pendingCurrencyCoinflip session? now = .ok p) : p = 0 := by
  match session? with
  | none =>
      simp only [pendingCurrencyCoinflip, Except.ok.injEq] at h
      omega
  | some j =>
      have hj : j.aware = true := haware j rfl
      simp only [pendingCurrencyCoinflip] at h
      rw [show tsSub (naiveNow now) j = .error .typeError by
          simp [tsSub, naiveNow, hj]] at h
      exact absurd h (by simp)

/-- Net effect of one `on_voice_state_update` call for the affected user:
the user's `active_sessions` entry afterwards, the `(seconds, currency)`
delta committed to the ledger by `record_vc_session`, and the unhandled
exception, if any, that aborted the handler. -/
structure SettlementResult where
  sessionAfter : Option Timestamp
  secondsCommitted : Int
  currencyCommitted : Int
  err : Option PyError
deriving DecidableEq

/-- Handler `on_voice_state_update` (lines 393-417) for one member: the
leave/switch branch pops the session, truncates the elapsed time to whole
seconds, evaluates `int(duration_seconds / SECS_PER_CURRENCY)` (line 409,
which reads an undefined name), and only then guards `duration > 0`
before committing; the join/switch branch then stores `now` as the new
session start.  An exception in the leave branch leaves the already
popped session popped and skips both the commit and the join branch. -/
def on_voice_state_update (isBot : Bool) (beforeChannel afterChannel : Option Nat)
    (session? : Option Timestamp) (now : ℚ) : SettlementResult :=
  if isBot then ⟨session?, 0, 0, none⟩
  else
    let leave : Option Timestamp × Int × Int × Option PyError :=
      if beforeChannel ≠ none ∧ beforeChannel ≠ afterChannel then
        match session? with
        | some join0 =>
            let join := coerceAware join0
            match tsSub (awareNow now) join with
            | .error e => (none, 0, 0, some e)
            | .ok secs =>
                let duration := pyTrunc secs
                match SECS_PER_CURRENCY with
                | .error e => (none, 0, 0, some e)
                | .ok spc =>
                    let award := pyTrunc ((duration : ℚ) / spc)
                    if 0 < duration then (none, duration, award, none)
                    else (none, 0, 0, none)
        | none => (session?, 0, 0, none)
      else (session?, 0, 0, none)
    match leave with
    | (s, d, c, some e) => ⟨s, d, c, some e⟩
    | (s, d, c, none) =>
        if afterChannel ≠ none ∧ afterChannel ≠ beforeChannel then
          ⟨some (awareNow now), d, c, none⟩
        else ⟨s, d, c, none⟩

/-- Claim C1: no wager debit drives the persisted balance negative, and a
wager debit exceeding the effective balance is never applied.  For each
wager-initiating command (blackjack, roulette, coinflip, horse bet), if
the command reaches its pessimistic debit then the amount debited is at
most the effective balance the validation computed, that effective
balance equals the stored balance (the pending-session contribution is 0
on every non-raising path), and the stored balance stays nonnegative. -/
theorem wager_debit_nonnegative
    (stored : Int) (session? : Option Timestamp) (now : ℚ)
    (amount oldBetAmount : Int) (configSet lockedMinute : Bool)
    (_h0 : 0 ≤ stored)
    (haware : ∀ j, session? = some j → j.aware = true) :
    (∀ eff ns, blackjackCommand stored session? now amount = .ok (.accepted eff ns) →
        eff = stored ∧ amount ≤ eff ∧ ns = stored - amount ∧ 0 ≤ ns) ∧
    (∀ eff ns, rouletteCommand stored session? now amount = .ok (.accepted eff ns) →
        eff = stored ∧ amount ≤ eff ∧ ns = stored - amount ∧ 0 ≤ ns) ∧
    (∀ eff ns, coinflipCommand stored session? now amount = .ok (.accepted eff ns) →
        eff = stored ∧ amount ≤ eff ∧ ns = stored - amount ∧ 0 ≤ ns) ∧
    (∀ cost ns, betHorseCommand configSet lockedMinute stored session? now
          amount oldBetAmount = .ok (.accepted cost ns) →
        cost = amount - oldBetAmount ∧ cost ≤ stored ∧ ns = stored - cost ∧ 0 ≤ ns) := by
  refine ⟨?_, ?_, ?_, ?_⟩
  · intro eff ns h
    unfold blackjackCommand at h
    split at h
    · exact absurd h (by simp)
    · cases hp : pendingCurrencyAware session? now with
      | error e => rw [hp] at h; exact absurd h (by simp)
      | ok pending =>
          rw [hp] at h
          have hp0 : pending = 0 := pendingCurrencyAware_ok_eq_zero hp
          subst hp0
          simp only [add_zero] at h
          split at h
          · exact absurd h (by simp)
          · simp only [Except.ok.injEq, WagerOutcome.accepted.injEq] at h
            omega
  · intro eff ns h
    unfold rouletteCommand at h
    cases hp : pendingCurrencyAware session? now with
    | error e => rw [hp] at h; exact absurd h (by simp)
    | ok pending =>
        rw [hp] at h
        have hp0 : pending = 0 := pendingCurrencyAware_ok_eq_zero hp
        subst hp0
        simp only [add_zero] at h
        split at h
        · exact absurd h (by simp)
        · simp only [Except.ok.injEq, WagerOutcome.accepted.injEq] at h
          omega
  · intro eff ns h
    unfold coinflipCommand at h
    split at h
    · exact absurd h (by simp)
    · cases hp : pendingCurrencyCoinflip session? now with
      | error e => rw [hp] at h; exact absurd h (by simp)
      | ok pending =>
          rw [hp] at h
          have hp0 : pending = 0 := pendingCurrencyCoinflip_ok_eq_zero haware hp
          subst hp0
          simp only [add_zero] at h
          split at h
          · exact absurd h (by simp)
          · simp only [Except.ok.injEq, WagerOutcome.accepted.injEq] at h
            omega
  · intro cost ns h
    unfold betHorseCommand at h
    split at h
    · exact absurd h (by simp)
    · split at h
      · exact absurd h (by simp)
      · cases hp : pendingCurrencyAware session? now with
        | error e => rw [hp] at h; exact absurd h (by simp)
        | ok pending =>
            rw [hp] at h
            have hp0 : pending = 0 := pendingCurrencyAware_ok_eq_zero hp
            subst hp0
            simp only [add_zero] at h
            split at h
            · exact absurd h (by simp)
            · simp only [Except.ok.injEq, BetOutcome.accepted.injEq] at h
              omega

/-- Witness for `wager_debit_nonnegative` at a concrete input. -/
theorem wager_debit_nonnegative_witness :
    (0 : Int) ≤ 10 ∧
    blackjackCommand 10 none 0 5 = .ok (.accepted 10 5) ∧
    ((10 : Int) = 10 ∧ (5 : Int) ≤ 10 ∧ (5 : Int) = 10 - 5 ∧ (0 : Int) ≤ 5) := by
  refine ⟨by norm_num, rfl, ?_⟩
  exact (wager_debit_nonnegative 10 none 0 5 0 true false (by norm_num)
    (by intro j hj; simp at hj)).1 10 5 rfl

/-- Claim C2 (code bug): on a leave event with an active session of
119, 120 or 59 seconds, the handler evaluates
`int(duration_seconds / SECS_PER_CURRENCY)`, a read of an undefined name
(the constant is spelled `SECONDS_PER_CURRENCY`), so it raises
`NameError`, commits neither the elapsed seconds nor any currency award,
and loses the popped session entry. -/
theorem settlement_commit_raises_nameError :
    on_voice_state_update false (some 1) none (some ⟨0, true⟩) 119 =
      ⟨none, 0, 0, some .nameError⟩ ∧
    on_voice_state_update false (some 1) none (some ⟨0, true⟩) 120 =
      ⟨none, 0, 0, some .nameError⟩ ∧
    on_voice_state_update false (some 1) none (some ⟨0, true⟩) 59 =
      ⟨none, 0, 0, some .nameError⟩ := ⟨rfl, rfl, rfl⟩

/-- Claim C3 (code bug): with an active session, the effective-balance
computation raises instead of returning
`stored + floor(elapsed / SECONDS_PER_CURRENCY)`: `/balance` raises
`NameError` via the undefined `SECS_PER_CURRENCY`, and `/coinflip` raises
`TypeError` by subtracting the aware join time from a naive
`datetime.now()`.  Without an active session the computation does return
the stored balance plus 0. -/
theorem effective_balance_read_raises :
    balanceCommand 100 (some ⟨0, true⟩) 300 = .error .nameError ∧
    balanceCommand 100 none 300 = .ok 100 ∧
    coinflipCommand 100 (some ⟨0, true⟩) 300 3 = .error .typeError := by
  refine ⟨?_, ?_, ?_⟩
  · norm_num [balanceCommand, pendingCurrencyAware, coerceAware, tsSub, awareNow,
      SECS_PER_CURRENCY]
  · norm_num [balanceCommand, pendingCurrencyAware]
  · norm_num [coinflipCommand, pendingCurrencyCoinflip, tsSub, naiveNow]

/-- Claim C4 (code bug): non-positive amounts are rejected without any
ledger mutation, but for a user with an active session an over-balance
wager is not "rejected while reporting the current effective balance":
the handler crashes (`NameError` in blackjack, `TypeError` in coinflip)
before the insufficient-funds check.  Without an active session the
rejection path does report the effective balance. -/
theorem wager_insufficient_rejection_crashes :
    blackjackCommand 5 (some ⟨0, true⟩) 240 20 = .error .nameError ∧
    coinflipCommand 4 (some ⟨0, true⟩) 240 50 = .error .typeError ∧
    blackjackCommand 5 none 240 0 = .ok .rejectedNonPositive ∧
    coinflipCommand 4 none 240 (-3) = .ok .rejectedNonPositive ∧
    blackjackCommand 5 none 240 20 = .ok (.rejectedInsufficient 5) := by
  refine ⟨?_, ?_, ?_, ?_, ?_⟩
  · norm_num [blackjackCommand, pendingCurrencyAware, coerceAware, tsSub, awareNow,
      SECS_PER_CURRENCY]
  · norm_num [coinflipCommand, pendingCurrencyCoinflip, tsSub, naiveNow]
  · norm_num [blackjackCommand]
  · norm_num [coinflipCommand]
  · norm_num [blackjackCommand, pendingCurrencyAware]

/-! ## Blackjack: cards and hand evaluation -/

/-- Card ranks `[2, 3, 4, 5, 6, 7, 8, 9, 10, J, Q, K, A]` (line 216). -/
inductive Rank
  | r2 | r3 | r4 | r5 | r6 | r7 | r8 | r9 | r10 | jack | queen | king | ace
deriving DecidableEq, Fintype

/-- The four suits (line 217). -/
inductive Suit
  | hearts | diamonds | clubs | spades
deriving DecidableEq, Fintype

/-- A card is a rank paired with a suit. -/
abbrev Card := Rank × Suit

/-- The list of ranks in source order. -/
def RANKS : List Rank :=
  [.r2, .r3, .r4, .r5, .r6, .r7, .r8, .r9, .r10, .jack, .queen, .king, .ace]

/-- The list of suits in source order. -/
def SUITS : List Suit := [.hearts, .diamonds, .clubs, .spades]

/-- Function `create_deck` before shuffling (lines 214-220): the comprehension
`[{rank, suit} for rank in ranks for suit in suits]`.  `random.shuffle`
is modelled by quantifying over permutations of this list. -/
def standardDeck : List Card := RANKS.flatMap (fun r => SUITS.map (fun s => (r, s)))

/-- Per-card contribution in `calculate_hand_value` (lines 227-235):
numeric rank for 2-10, 10 for J/Q/K, 11 for an Ace. -/
def rankValue : Rank → Nat
  | .r2 => 2 | .r3 => 3 | .r4 => 4 | .r5 => 5 | .r6 => 6 | .r7 => 7
  | .r8 => 8 | .r9 => 9 | .r10 => 10
  | .jack => 10 | .queen => 10 | .king => 10
  | .ace => 11

/-- Sum of the per-card contributions (`value` after the `for` loop). -/
def rawScore (hand : List Card) : Nat := (hand.map (fun c => rankValue c.1)).sum

/-- Number of Aces in the hand (`ace_count` after the `for` loop). -/
def countAces (hand : List Card) : Nat := hand.countP (fun c => decide (c.1 = Rank.ace))

/-- The demotion loop of `calculate_hand_value` (lines 237-239):
`while value > 21 and ace_count > 0: value -= 10; ace_count -= 1`. -/
def adjustAces : Nat → Nat → Nat
  | v, 0 => v
  | v, a + 1 => if 21 < v then adjustAces (v - 10) a else v

/-- Function `calculate_hand_value` (lines 222-241). -/
def calculate_hand_value (hand : List Card) : Nat :=
  adjustAces (rawScore hand) (countAces hand)

theorem adjustAces_exists_demotions (a : Nat) :
    ∀ v : Nat, ∃ d ≤ a, adjustAces v a + 10 * d = v ∧
      (adjustAces v a ≤ 21 ∨ d = a) ∧ (∀ e < d, 21 + 10 * e < v) := by
  induction a with
  | zero =>
      intro v
      exact ⟨0, le_rfl, by simp [adjustAces], Or.inr rfl, by omega⟩
  | succ a ih =>
      intro v
      by_cases hv : 21 < v
      · obtain ⟨d, hd, hsum, hstop, hmin⟩ := ih (v - 10)
        refine ⟨d + 1, by omega, ?_, ?_, ?_⟩
        · simp only [adjustAces, if_pos hv]
          omega
        · rcases hstop with h | h
          · exact Or.inl (by simpa [adjustAces, if_pos hv] using h)
          · exact Or.inr (by omega)
        · intro e he
          match e with
          | 0 => omega
          | e + 1 => have := hmin e (by omega); omega
      · exact ⟨0, by omega, by simp [adjustAces, hv], Or.inl (by simp [adjustAces, hv]; omega),
          by omega⟩

/-- Claim C5: each card 2-10 counts its numeric rank, J/Q/K count 10,
each Ace counts 11 and is demoted by 10 (i.e. to 1), one at a time,
while the total exceeds 21 and a demotable Ace remains; the demotion
count `d` is minimal (every smaller count leaves the total above 21) and
stops either at a total of at most 21 or when all Aces are demoted.  In
particular `[A, A, 9]` evaluates to 21, `[K, K]` to 20 and `[A, K, A]`
to 12. -/
theorem hand_value_ace_demotion :
    (∀ hand : List Card, ∃ d ≤ countAces hand,
        calculate_hand_value hand + 10 * d = rawScore hand ∧
        (calculate_hand_value hand ≤ 21 ∨ d = countAces hand) ∧
        (∀ e < d, 21 + 10 * e < rawScore hand)) ∧
    calculate_hand_value
      [(Rank.ace, Suit.hearts), (Rank.ace, Suit.spades), (Rank.r9, Suit.hearts)] = 21 ∧
    calculate_hand_value [(Rank.king, Suit.hearts), (Rank.king, Suit.spades)] = 20 ∧
    calculate_hand_value
      [(Rank.ace, Suit.hearts), (Rank.king, Suit.hearts), (Rank.ace, Suit.spades)] = 12 := by
  refine ⟨?_, by decide, by decide, by decide⟩
  intro hand
  exact adjustAces_exists_demotions (countAces hand) (rawScore hand)

/-! ## Blackjack: the game state machine

The Python deck list is consumed with `pop()` from its end; the embedding
keeps the draw pile with the next card to be drawn at the head, i.e. the
Lean list is the Python list reversed.  Every draw in the source
(`__init__`, `hit`, `dealer_turn`) goes through the same `pop()`. -/

/-- Result of a finished game, as passed to `end_game`. -/
inductive GameResult
  | win | lose | push
deriving DecidableEq

/-- Whether the view still accepts moves (`PLAYER_TURN`) or the game is
over (`game_over` set, buttons disabled, view stopped). -/
inductive GamePhase
  | playerTurn
  | settled (r : GameResult)
deriving DecidableEq

/-- The per-game state of `BlackjackView` (lines 973-984). -/
structure BlackjackGame where
  deck : List Card
  player_hand : List Card
  dealer_hand : List Card
  bet_amount : Int
  phase : GamePhase
deriving DecidableEq

/-- Ledger credit applied by `end_game` (lines 1037-1060): win pays
`bet_amount * 2`, push returns `bet_amount`, loss credits nothing. -/
def settleCredit (bet : Int) : GameResult → Int
  | .win => bet * 2
  | .push => bet
  | .lose => 0

/-- Method `end_game` (lines 1037-1071): disables input (terminal phase) and
applies the payout credit to the ledger. -/
def end_game (g : BlackjackGame) (result : GameResult) : BlackjackGame × Int :=
  ({ g with phase := .settled result }, settleCredit g.bet_amount result)

/-- The comparison at the end of `dealer_turn` (lines 1115-1122). -/
def compareHands (playerScore dealerScore : Nat) : GameResult :=
  if 21 < dealerScore then .win
  else if playerScore < dealerScore then .lose
  else if dealerScore < playerScore then .win
  else .push

/-- The dealer draw loop of `dealer_turn` (lines 1107-1111):
`while dealer_score < 17: dealer_hand.append(deck.pop())`.  Returns the
final dealer hand and the remaining deck; a pop from an empty deck is
`IndexError`. -/
def dealerDraw : List Card → List Card → Except PyError (List Card × List Card)
  | dealer, [] =>
      if calculate_hand_value dealer < 17 then .error .indexError
      else .ok (dealer, [])
  | dealer, c :: rest =>
      if calculate_hand_value dealer < 17 then dealerDraw (dealer ++ [c]) rest
      else .ok (dealer, c :: rest)

/-- Method `dealer_turn` (lines 1105-1122): run the dealer draw loop, then
settle the game by the hand comparison. -/
def dealerResolve (g : BlackjackGame) : Except PyError (BlackjackGame × Int) :=
  match dealerDraw g.dealer_hand g.deck with
  | .error e => .error e
  | .ok (d', dk') =>
      .ok (end_game { g with dealer_hand := d', deck := dk' }
        (compareHands (calculate_hand_value g.player_hand) (calculate_hand_value d')))

/-- Interactions a game can receive: the two buttons and the view
timeout. -/
inductive GEvent
  | hit | stand | timeout
deriving DecidableEq

/-- Method `on_timeout` (lines 1073-1075): a no-op once the game is over,
otherwise a forfeit (`end_game "lose"`, which credits nothing). -/
def on_timeout (g : BlackjackGame) : BlackjackGame × Int :=
  match g.phase with
  | .settled _ => (g, 0)
  | .playerTurn => end_game g .lose

/-- One interaction against the game.  After settlement the view is
stopped and its buttons disabled, so `hit`/`stand` no longer reach the
game and are no-ops.  `hit` (lines 1078-1094) pops a card: bust settles
as a loss, exactly 21 auto-runs the dealer, otherwise the player may act
again.  `stand` (lines 1096-1103) runs the dealer. -/
def step (g : BlackjackGame) : GEvent → Except PyError (BlackjackGame × Int)
  | .timeout => .ok (on_timeout g)
  | .hit =>
      match g.phase with
      | .settled _ => .ok (g, 0)
      | .playerTurn =>
          match g.deck with
          | [] => .error .indexError
          | c :: rest =>
              let g1 := { g with deck := rest, player_hand := g.player_hand ++ [c] }
              if 21 < calculate_hand_value g1.player_hand then .ok (end_game g1 .lose)
              else if calculate_hand_value g1.player_hand = 21 then dealerResolve g1
              else .ok (g1, 0)
  | .stand =>
      match g.phase with
      | .settled _ => .ok (g, 0)
      | .playerTurn => dealerResolve g

/-- Constructor `BlackjackView.__init__` plus `start_game` (lines 974-994): deal two
cards to the player and two to the dealer from the shuffled deck; an
initial player total of 21 settles immediately as a win (`end_game`
before any dealer play), otherwise the game enters the player turn. -/
def newGame (deck0 : List Card) (bet : Int) : Except PyError (BlackjackGame × Int) :=
  match deck0 with
  | p1 :: p2 :: d1 :: d2 :: rest =>
      let g0 : BlackjackGame :=
        { deck := rest, player_hand := [p1, p2], dealer_hand := [d1, d2],
          bet_amount := bet, phase := .playerTurn }
      if calculate_hand_value g0.player_hand = 21 then .ok (end_game g0 .win)
      else .ok (g0, 0)
  | _ => .error .indexError

/-- Run a sequence of interactions, accumulating the ledger credits the
settlement applies. -/
def runGame : BlackjackGame → List GEvent → Except PyError (BlackjackGame × Int)
  | g, [] => .ok (g, 0)
  | g, e :: rest =>
      match step g e with
      | .error er => .error er
      | .ok (g1, c1) =>
          match runGame g1 rest with
          | .error er => .error er
          | .ok (g2, c2) => .ok (g2, c1 + c2)

/-! ### Helper lemmas about hand values and the dealer loop -/

/-- Proof-side helper: the hand total with every Ace counted as 1. -/
def hardScore (hand : List Card) : Nat :=
  (hand.map (fun c => if c.1 = Rank.ace then 1 else rankValue c.1)).sum

theorem rawScore_cons (c : Card) (t : List Card) :
    rawScore (c :: t) = rankValue c.1 + rawScore t := by
  simp [rawScore]

theorem hardScore_cons (c : Card) (t : List Card) :
    hardScore (c :: t) = (if c.1 = Rank.ace then 1 else rankValue c.1) + hardScore t := by
  simp [hardScore]

theorem countAces_cons (c : Card) (t : List Card) :
    countAces (c :: t) = (if c.1 = Rank.ace then 1 else 0) + countAces t := by
  by_cases hc : c.1 = Rank.ace
  · simp [countAces, List.countP_cons, hc]
    omega
  · simp [countAces, List.countP_cons, hc]

theorem countAces_nil : countAces ([] : List Card) = 0 := rfl

theorem countAces_append (l1 l2 : List Card) :
    countAces (l1 ++ l2) = countAces l1 + countAces l2 := by
  simp [countAces, List.countP_append]

theorem countAces_singleton (c : Card) :
    countAces [c] = if c.1 = Rank.ace then 1 else 0 := by
  rw [countAces_cons, countAces_nil]
  omega

theorem rawScore_eq_hard_add_aces (hand : List Card) :
    rawScore hand = hardScore hand + 10 * countAces hand := by
  induction hand with
  | nil => simp [rawScore, hardScore, countAces]
  | cons c t ih =>
      rw [rawScore_cons, hardScore_cons, countAces_cons]
      by_cases hc : c.1 = Rank.ace
      · have hA : rankValue c.1 = 11 := by rw [hc]; rfl
        rw [hA]
        simp only [if_pos hc]
        omega
      · simp only [if_neg hc]
        omega

theorem two_le_rankValue (r : Rank) : 2 ≤ rankValue r := by
  cases r <;> simp [rankValue]

theorem two_mul_length_le_hard_add_aces (hand : List Card) :
    2 * hand.length ≤ hardScore hand + countAces hand := by
  induction hand with
  | nil => simp [hardScore, countAces]
  | cons c t ih =>
      rw [List.length_cons, hardScore_cons, countAces_cons]
      by_cases hc : c.1 = Rank.ace
      · simp only [if_pos hc]
        omega
      · have h2 := two_le_rankValue c.1
        simp only [if_neg hc]
        omega

theorem le_adjustAces_add (a : Nat) : ∀ v : Nat, v ≤ adjustAces v a + 10 * a := by
  induction a with
  | zero => intro v; simp [adjustAces]
  | succ a ih =>
      intro v
      simp only [adjustAces]
      split
      · have := ih (v - 10)
        omega
      · omega

theorem hardScore_le_calc (hand : List Card) :
    hardScore hand ≤ calculate_hand_value hand := by
  have h := le_adjustAces_add (countAces hand) (rawScore hand)
  rw [calculate_hand_value]
  have hr := rawScore_eq_hard_add_aces hand
  omega

/-- The key size bound: a hand of value `V` with at most 4 aces has at
most `(V + 4) / 2` cards. -/
theorem two_mul_length_le_calc_add_aces (hand : List Card) :
    2 * hand.length ≤ calculate_hand_value hand + countAces hand := by
  have h1 := two_mul_length_le_hard_add_aces hand
  have h2 := hardScore_le_calc hand
  omega

theorem dealerDraw_spec :
    ∀ deck dealer d' dk', dealerDraw dealer deck = .ok (d', dk') →
      (∃ drawn, d' = dealer ++ drawn ∧ drawn ++ dk' = deck ∧
        (∀ k < drawn.length, calculate_hand_value (dealer ++ drawn.take k) < 17)) ∧
      17 ≤ calculate_hand_value d' := by
  intro deck
  induction deck with
  | nil =>
      intro dealer d' dk' h
      unfold dealerDraw at h
      split at h
      · exact absurd h (by simp)
      · simp only [Except.ok.injEq, Prod.mk.injEq] at h
        obtain ⟨h1, h2⟩ := h
        subst h1; subst h2
        exact ⟨⟨[], by simp, rfl, by intro k hk; simp at hk⟩, by omega⟩
  | cons c rest ih =>
      intro dealer d' dk' h
      unfold dealerDraw at h
      split at h
      · obtain ⟨⟨drawn, hd1, hd2, hd3⟩, hd4⟩ := ih (dealer ++ [c]) d' dk' h
        refine ⟨⟨c :: drawn, by simp [hd1], by simp [hd2], ?_⟩, hd4⟩
        intro k hk
        match k with
        | 0 => simpa using by assumption
        | k + 1 =>
            have := hd3 k (by simpa using hk)
            simpa [List.append_assoc] using this
      · simp only [Except.ok.injEq, Prod.mk.injEq] at h
        obtain ⟨h1, h2⟩ := h
        subst h1; subst h2
        exact ⟨⟨[], by simp, rfl, by intro k hk; simp at hk⟩, by omega⟩

theorem dealerDraw_isOk :
    ∀ deck dealer (extraLen : Nat),
      deck.length + dealer.length + extraLen = 52 →
      extraLen ≤ 12 →
      countAces dealer + countAces deck ≤ 4 →
      ∃ out, dealerDraw dealer deck = .ok out := by
  intro deck
  induction deck with
  | nil =>
      intro dealer extraLen hlen hx hace
      by_cases hv : calculate_hand_value dealer < 17
      · exfalso
        have hb := two_mul_length_le_calc_add_aces dealer
        rw [countAces_nil] at hace
        simp only [List.length_nil] at hlen
        omega
      · exact ⟨(dealer, []), by simp [dealerDraw, hv]⟩
  | cons c rest ih =>
      intro dealer extraLen hlen hx hace
      by_cases hv : calculate_hand_value dealer < 17
      · rw [countAces_cons] at hace
        obtain ⟨out, hout⟩ := ih (dealer ++ [c]) extraLen
          (by simp [List.length_append] at hlen ⊢
              omega)
          hx
          (by rw [countAces_append, countAces_singleton]
              omega)
        exact ⟨out, by simp [dealerDraw, hv, hout]⟩
      · exact ⟨(dealer, c :: rest), by simp [dealerDraw, hv]⟩

theorem standardDeck_length : standardDeck.length = 52 := by decide

theorem standardDeck_aces : countAces standardDeck = 4 := by decide

theorem two_card_le_21 : ∀ c1 c2 : Card, calculate_hand_value [c1, c2] ≤ 21 := by decide

/-- Reachability invariant of a game state: the deck and the two hands
partition the 52 cards of one physical deck (so they hold 52 cards and 4
aces in total), and while the player may still act their total is at
most 20 and the dealer holds exactly the two dealt cards. -/
def GameInv (g : BlackjackGame) : Prop :=
  g.deck.length + g.player_hand.length + g.dealer_hand.length = 52 ∧
  countAces g.deck + countAces g.player_hand + countAces g.dealer_hand = 4 ∧
  (g.phase = .playerTurn → calculate_hand_value g.player_hand ≤ 20 ∧
    g.dealer_hand.length = 2)

theorem newGame_unfold (p1 p2 d1 d2 : Card) (rest : List Card) (bet : Int) :
    newGame (p1 :: p2 :: d1 :: d2 :: rest) bet =
      if calculate_hand_value [p1, p2] = 21 then
        .ok ({ deck := rest, player_hand := [p1, p2], dealer_hand := [d1, d2],
               bet_amount := bet, phase := .settled .win }, bet * 2)
      else
        .ok ({ deck := rest, player_hand := [p1, p2], dealer_hand := [d1, d2],
               bet_amount := bet, phase := .playerTurn }, 0) := rfl

theorem newGame_isOk (deck0 : List Card) (bet : Int) (hlen : deck0.length = 52) :
    ∃ out, newGame deck0 bet = .ok out := by
  rcases deck0 with - | ⟨p1, - | ⟨p2, - | ⟨d1, - | ⟨d2, rest⟩⟩⟩⟩
  · exfalso; simp at hlen
  · exfalso; simp at hlen
  · exfalso; simp at hlen
  · exfalso; simp at hlen
  · rw [newGame_unfold]
    split
    · exact ⟨_, rfl⟩
    · exact ⟨_, rfl⟩

theorem newGame_inv (deck0 : List Card) (bet : Int) (g : BlackjackGame) (cr : Int)
    (hperm : deck0.Perm standardDeck) (h : newGame deck0 bet = .ok (g, cr)) :
    GameInv g := by
  have hlen : deck0.length = 52 := by rw [hperm.length_eq, standardDeck_length]
  have hace : countAces deck0 = 4 := by
    have hp := hperm.countP_eq (fun c : Card => decide (c.1 = Rank.ace))
    have h4 := standardDeck_aces
    unfold countAces at h4 ⊢
    exact hp.trans h4
  rcases deck0 with - | ⟨p1, - | ⟨p2, - | ⟨d1, - | ⟨d2, rest⟩⟩⟩⟩
  · exfalso; simp at hlen
  · exfalso; simp at hlen
  · exfalso; simp at hlen
  · exfalso; simp at hlen
  · simp only [List.length_cons] at hlen
    rw [countAces_cons, countAces_cons, countAces_cons, countAces_cons] at hace
    rw [newGame_unfold] at h
    have hc2 := two_card_le_21 p1 p2
    split at h
    · simp only [Except.ok.injEq, Prod.mk.injEq] at h
      obtain ⟨hg, -⟩ := h
      subst hg
      refine ⟨?_, ?_, ?_⟩
      · show rest.length + 2 + 2 = 52
        omega
      · show countAces rest + countAces [p1, p2] + countAces [d1, d2] = 4
        simp only [countAces_cons, countAces_nil]
        omega
      · intro hcontra; exact absurd hcontra (by simp)
    · simp only [Except.ok.injEq, Prod.mk.injEq] at h
      obtain ⟨hg, -⟩ := h
      subst hg
      refine ⟨?_, ?_, ?_⟩
      · show rest.length + 2 + 2 = 52
        omega
      · show countAces rest + countAces [p1, p2] + countAces [d1, d2] = 4
        simp only [countAces_cons, countAces_nil]
        omega
      · intro _
        refine ⟨?_, rfl⟩
        show calculate_hand_value [p1, p2] ≤ 20
        omega

theorem end_game_def (g : BlackjackGame) (r : GameResult) :
    end_game g r = ({ g with phase := .settled r }, settleCredit g.bet_amount r) := rfl

theorem on_timeout_playerTurn (g : BlackjackGame) (hpt : g.phase = .playerTurn) :
    on_timeout g = end_game g .lose := by
  unfold on_timeout
  rw [hpt]

theorem step_stand_playerTurn (g : BlackjackGame) (hpt : g.phase = .playerTurn) :
    step g .stand = dealerResolve g := by
  unfold step
  rw [hpt]

theorem step_hit_playerTurn (g : BlackjackGame) (cd : Card) (rest : List Card)
    (hpt : g.phase = .playerTurn) (hdeck : g.deck = cd :: rest) :
    step g .hit =
      (if 21 < calculate_hand_value (g.player_hand ++ [cd]) then
        .ok (end_game { g with deck := rest, player_hand := g.player_hand ++ [cd] } .lose)
      else if calculate_hand_value (g.player_hand ++ [cd]) = 21 then
        dealerResolve { g with deck := rest, player_hand := g.player_hand ++ [cd] }
      else .ok ({ g with deck := rest, player_hand := g.player_hand ++ [cd] }, 0)) := by
  unfold step
  rw [hpt, hdeck]

theorem dealerResolve_spec (g g1 : BlackjackGame) (c : Int)
    (h : dealerResolve g = .ok (g1, c)) :
    ∃ d' dk', dealerDraw g.dealer_hand g.deck = .ok (d', dk') ∧
      g1 = { g with dealer_hand := d', deck := dk',
                    phase := .settled (compareHands (calculate_hand_value g.player_hand)
                      (calculate_hand_value d')) } ∧
      c = settleCredit g.bet_amount
            (compareHands (calculate_hand_value g.player_hand)
              (calculate_hand_value d')) := by
  unfold dealerResolve at h
  cases hdd : dealerDraw g.dealer_hand g.deck with
  | error e => rw [hdd] at h; exact absurd h (by simp)
  | ok pr =>
      obtain ⟨d', dk'⟩ := pr
      rw [hdd] at h
      simp only [end_game, Except.ok.injEq, Prod.mk.injEq] at h
      exact ⟨d', dk', rfl, h.1.symm, h.2.symm⟩

theorem dealerResolve_isOk (g : BlackjackGame)
    (hlen : g.deck.length + g.player_hand.length + g.dealer_hand.length = 52)
    (hace : countAces g.deck + countAces g.player_hand + countAces g.dealer_hand = 4)
    (hp : g.player_hand.length ≤ 12) :
    ∃ out, dealerResolve g = .ok out := by
  obtain ⟨out, hout⟩ := dealerDraw_isOk g.deck g.dealer_hand g.player_hand.length
    (by omega) (by omega) (by omega)
  obtain ⟨d', dk'⟩ := out
  refine ⟨(end_game { g with dealer_hand := d', deck := dk' }
    (compareHands (calculate_hand_value g.player_hand) (calculate_hand_value d'))), ?_⟩
  unfold dealerResolve
  rw [hout]

theorem step_settled (g : BlackjackGame) (r : GameResult) (e : GEvent)
    (hph : g.phase = .settled r) : step g e = .ok (g, 0) := by
  cases e <;> simp [step, on_timeout, hph]

theorem step_playerTurn_spec (g : BlackjackGame) (e : GEvent) (g1 : BlackjackGame)
    (c : Int) (hpt : g.phase = .playerTurn) (h : step g e = .ok (g1, c)) :
    g1.bet_amount = g.bet_amount ∧
    g1.deck.length + g1.player_hand.length + g1.dealer_hand.length =
      g.deck.length + g.player_hand.length + g.dealer_hand.length ∧
    countAces g1.deck + countAces g1.player_hand + countAces g1.dealer_hand =
      countAces g.deck + countAces g.player_hand + countAces g.dealer_hand ∧
    ((g1.phase = .playerTurn ∧ c = 0 ∧ calculate_hand_value g1.player_hand ≤ 20 ∧
        g1.dealer_hand = g.dealer_hand) ∨
     (∃ r, g1.phase = .settled r ∧ c = settleCredit g.bet_amount r)) := by
  cases e with
  | timeout =>
      have hst : step g .timeout = .ok (on_timeout g) := rfl
      rw [hst, on_timeout_playerTurn g hpt, end_game_def] at h
      simp only [Except.ok.injEq, Prod.mk.injEq] at h
      obtain ⟨hg, hc⟩ := h
      subst hg
      exact ⟨rfl, rfl, rfl, Or.inr ⟨.lose, rfl, hc.symm⟩⟩
  | stand =>
      rw [step_stand_playerTurn g hpt] at h
      obtain ⟨d', dk', hdd, hg, hc⟩ := dealerResolve_spec g g1 c h
      obtain ⟨⟨drawn, he1, he2, -⟩, -⟩ := dealerDraw_spec g.deck g.dealer_hand d' dk' hdd
      subst hg
      refine ⟨rfl, ?_, ?_, Or.inr ⟨_, rfl, hc⟩⟩
      · have h1 : d'.length = g.dealer_hand.length + drawn.length := by
          have hh := congrArg List.length he1
          simpa using hh
        have h2 : drawn.length + dk'.length = g.deck.length := by
          have hh := congrArg List.length he2
          simpa using hh
        show dk'.length + g.player_hand.length + d'.length =
          g.deck.length + g.player_hand.length + g.dealer_hand.length
        omega
      · have h1 : countAces d' = countAces g.dealer_hand + countAces drawn := by
          have hh := congrArg countAces he1
          simpa [countAces_append] using hh
        have h2 : countAces drawn + countAces dk' = countAces g.deck := by
          have hh := congrArg countAces he2
          simpa [countAces_append] using hh
        show countAces dk' + countAces g.player_hand + countAces d' =
          countAces g.deck + countAces g.player_hand + countAces g.dealer_hand
        omega
  | hit =>
      cases hdeck : g.deck with
      | nil =>
          rw [show step g .hit = .error .indexError by unfold step; rw [hpt, hdeck]] at h
          exact absurd h (by simp)
      | cons cd rest =>
          rw [step_hit_playerTurn g cd rest hpt hdeck] at h
          split at h
          · -- bust: settles as a loss
            rw [end_game_def] at h
            simp only [Except.ok.injEq, Prod.mk.injEq] at h
            obtain ⟨hg, hc⟩ := h
            subst hg
            refine ⟨rfl, ?_, ?_, Or.inr ⟨.lose, rfl, hc.symm⟩⟩
            · show rest.length + (g.player_hand ++ [cd]).length + g.dealer_hand.length =
                (cd :: rest).length + g.player_hand.length + g.dealer_hand.length
              simp only [List.length_append, List.length_cons, List.length_nil]
              omega
            · show countAces rest + countAces (g.player_hand ++ [cd]) +
                  countAces g.dealer_hand =
                countAces (cd :: rest) + countAces g.player_hand + countAces g.dealer_hand
              rw [countAces_append, countAces_singleton, countAces_cons]
              omega
          · split at h
            · -- exactly 21: dealer runs immediately
              obtain ⟨d', dk', hdd, hg, hc⟩ := dealerResolve_spec _ g1 c h
              obtain ⟨⟨drawn, he1, he2, -⟩, -⟩ := dealerDraw_spec _ _ d' dk' hdd
              subst hg
              refine ⟨rfl, ?_, ?_, Or.inr ⟨_, rfl, hc⟩⟩
              · have h1 : d'.length = g.dealer_hand.length + drawn.length := by
                  have hh := congrArg List.length he1
                  simpa using hh
                have h2 : drawn.length + dk'.length = rest.length := by
                  have hh := congrArg List.length he2
                  simpa using hh
                show dk'.length + (g.player_hand ++ [cd]).length + d'.length =
                  (cd :: rest).length + g.player_hand.length + g.dealer_hand.length
                simp only [List.length_append, List.length_cons, List.length_nil]
                omega
              · have h1 : countAces d' = countAces g.dealer_hand + countAces drawn := by
                  have hh := congrArg countAces he1
                  simpa [countAces_append] using hh
                have h2 : countAces drawn + countAces dk' = countAces rest := by
                  have hh := congrArg countAces he2
                  simpa [countAces_append] using hh
                show countAces dk' + countAces (g.player_hand ++ [cd]) + countAces d' =
                  countAces (cd :: rest) + countAces g.player_hand + countAces g.dealer_hand
                rw [countAces_append, countAces_singleton, countAces_cons]
                omega
            · -- still below 21: player may act again
              simp only [Except.ok.injEq, Prod.mk.injEq] at h
              obtain ⟨hg, hc⟩ := h
              subst hg
              refine ⟨rfl, ?_, ?_, Or.inl ⟨hpt, hc.symm, ?_, rfl⟩⟩
              · show rest.length + (g.player_hand ++ [cd]).length + g.dealer_hand.length =
                  (cd :: rest).length + g.player_hand.length + g.dealer_hand.length
                simp only [List.length_append, List.length_cons, List.length_nil]
                omega
              · show countAces rest + countAces (g.player_hand ++ [cd]) +
                    countAces g.dealer_hand =
                  countAces (cd :: rest) + countAces g.player_hand + countAces g.dealer_hand
                rw [countAces_append, countAces_singleton, countAces_cons]
                omega
              · show calculate_hand_value (g.player_hand ++ [cd]) ≤ 20
                omega

theorem step_inv (g : BlackjackGame) (hinv : GameInv g) (e : GEvent)
    (g1 : BlackjackGame) (c : Int) (h : step g e = .ok (g1, c)) : GameInv g1 := by
  obtain ⟨hlen, hace, hpt⟩ := hinv
  cases hph : g.phase with
  | settled r =>
      rw [step_settled g r e hph] at h
      simp only [Except.ok.injEq, Prod.mk.injEq] at h
      obtain ⟨hg, -⟩ := h
      subst hg
      exact ⟨hlen, hace, hpt⟩
  | playerTurn =>
      obtain ⟨-, h1, h2, h3⟩ := step_playerTurn_spec g e g1 c hph h
      refine ⟨by omega, by omega, ?_⟩
      intro hpt1
      rcases h3 with ⟨-, -, hv, hd⟩ | ⟨r, hr, -⟩
      · exact ⟨hv, by rw [hd]; exact (hpt hph).2⟩
      · rw [hr] at hpt1; exact absurd hpt1 (by simp)

theorem step_isOk (g : BlackjackGame) (hinv : GameInv g) (e : GEvent) :
    ∃ out, step g e = .ok out := by
  obtain ⟨hlen, hace, hptinv⟩ := hinv
  cases hph : g.phase with
  | settled r => exact ⟨(g, 0), step_settled g r e hph⟩
  | playerTurn =>
      obtain ⟨hv20, hd2⟩ := hptinv hph
      have hacep : countAces g.player_hand ≤ 4 := by omega
      have hplen : g.player_hand.length ≤ 12 := by
        have := two_mul_length_le_calc_add_aces g.player_hand
        omega
      cases e with
      | timeout => exact ⟨(on_timeout g), rfl⟩
      | stand =>
          obtain ⟨out, hout⟩ := dealerResolve_isOk g hlen hace hplen
          refine ⟨out, ?_⟩
          rw [step_stand_playerTurn g hph]
          exact hout
      | hit =>
          have hdpos : 0 < g.deck.length := by omega
          cases hdeck : g.deck with
          | nil => rw [hdeck] at hdpos; simp at hdpos
          | cons cd rest =>
              by_cases hb : 21 < calculate_hand_value (g.player_hand ++ [cd])
              · refine ⟨(end_game
                  { g with deck := rest, player_hand := g.player_hand ++ [cd] } .lose), ?_⟩
                rw [step_hit_playerTurn g cd rest hph hdeck, if_pos hb]
              · by_cases h21 : calculate_hand_value (g.player_hand ++ [cd]) = 21
                · have hb3 : countAces (g.player_hand ++ [cd]) ≤ 4 := by
                    rw [hdeck, countAces_cons] at hace
                    rw [countAces_append, countAces_singleton]
                    omega
                  have hplen1 : (g.player_hand ++ [cd]).length ≤ 12 := by
                    have hb2 := two_mul_length_le_calc_add_aces (g.player_hand ++ [cd])
                    omega
                  obtain ⟨out, hout⟩ := dealerResolve_isOk
                    { g with deck := rest, player_hand := g.player_hand ++ [cd] }
                    (by show rest.length + (g.player_hand ++ [cd]).length +
                          g.dealer_hand.length = 52
                        rw [hdeck] at hlen
                        simp only [List.length_cons] at hlen
                        simp only [List.length_append, List.length_cons, List.length_nil]
                        omega)
                    (by show countAces rest + countAces (g.player_hand ++ [cd]) +
                          countAces g.dealer_hand = 4
                        rw [hdeck, countAces_cons] at hace
                        rw [countAces_append, countAces_singleton]
                        omega)
                    (by show (g.player_hand ++ [cd]).length ≤ 12
                        exact hplen1)
                  refine ⟨out, ?_⟩
                  rw [step_hit_playerTurn g cd rest hph hdeck, if_neg hb, if_pos h21]
                  exact hout
                · refine
                    ⟨({ g with deck := rest, player_hand := g.player_hand ++ [cd] },
                      0), ?_⟩
                  rw [step_hit_playerTurn g cd rest hph hdeck, if_neg hb, if_neg h21]

theorem runGame_settled (g : BlackjackGame) (r : GameResult)
    (hph : g.phase = .settled r) :
    ∀ events, runGame g events = .ok (g, 0) := by
  intro events
  induction events with
  | nil => rfl
  | cons e rest ih => simp [runGame, step_settled g r e hph, ih]

theorem runGame_isOk (events : List GEvent) :
    ∀ g, GameInv g → ∃ out, runGame g events = .ok out := by
  induction events with
  | nil => intro g _; exact ⟨(g, 0), rfl⟩
  | cons e rest ih =>
      intro g hinv
      obtain ⟨⟨g1, c1⟩, h1⟩ := step_isOk g hinv e
      obtain ⟨⟨g2, c2⟩, h2⟩ := ih g1 (step_inv g hinv e g1 c1 h1)
      exact ⟨(g2, c1 + c2), by simp [runGame, h1, h2]⟩

/-- Claim C10: starting from any permutation of the 52-card deck, dealing
the four initial cards succeeds and no sequence of interactions (hits,
stands, timeouts) can exhaust the deck: every draw succeeds, because
player hits happen only below 21 and dealer draws only below 17, which
bounds the two hands by 12 and 11 cards. -/
theorem blackjack_deck_never_exhausted (deck0 : List Card) (bet : Int)
    (events : List GEvent) (hperm : deck0.Perm standardDeck) :
    ∃ g cr out, newGame deck0 bet = .ok (g, cr) ∧ runGame g events = .ok out := by
  have hlen : deck0.length = 52 := by rw [hperm.length_eq, standardDeck_length]
  obtain ⟨⟨g, cr⟩, hng⟩ := newGame_isOk deck0 bet hlen
  obtain ⟨out, hrun⟩ := runGame_isOk events g (newGame_inv deck0 bet g cr hperm hng)
  exact ⟨g, cr, out, hng, hrun⟩

/-- Witness for `blackjack_deck_never_exhausted` at a concrete input:
the unshuffled deck and a hit followed by a stand. -/
theorem blackjack_deck_never_exhausted_witness :
    ∃ g cr out, newGame standardDeck 5 = .ok (g, cr) ∧
      runGame g [.hit, .stand] = .ok out :=
  blackjack_deck_never_exhausted standardDeck 5 [.hit, .stand] (List.Perm.refl _)

/-- Claim C6: an initial two-card player total of 21 settles immediately
as a win with the dealer's two dealt cards untouched; the dealer draw
loop draws exactly while its running total is below 17 and stops at the
first total of at least 17; the `stand` transition settles the game with
the comparison result; and the comparison is: dealer over 21 is a win,
else a higher dealer total loses, a higher player total wins, and equal
totals push. -/
theorem blackjack_resolution :
    (∀ deck0 bet g cr, newGame deck0 bet = .ok (g, cr) →
        calculate_hand_value g.player_hand = 21 →
        g.phase = .settled .win ∧ g.dealer_hand.length = 2) ∧
    (∀ dealer deck d' dk', dealerDraw dealer deck = .ok (d', dk') →
        (∃ drawn, d' = dealer ++ drawn ∧ drawn ++ dk' = deck ∧
          (∀ k < drawn.length, calculate_hand_value (dealer ++ drawn.take k) < 17)) ∧
        17 ≤ calculate_hand_value d') ∧
    (∀ g g1 c, g.phase = .playerTurn → step g .stand = .ok (g1, c) →
        ∃ d' dk', dealerDraw g.dealer_hand g.deck = .ok (d', dk') ∧
          g1.phase = .settled (compareHands (calculate_hand_value g.player_hand)
            (calculate_hand_value d'))) ∧
    (∀ pv dv, compareHands pv dv =
        if 21 < dv then .win else if pv < dv then .lose
        else if dv < pv then .win else .push) := by
  refine ⟨?_, ?_, ?_, fun pv dv => rfl⟩
  · intro deck0 bet g cr hng h21
    rcases deck0 with - | ⟨p1, - | ⟨p2, - | ⟨d1, - | ⟨d2, rest⟩⟩⟩⟩
    · exact absurd hng (by simp [newGame])
    · exact absurd hng (by simp [newGame])
    · exact absurd hng (by simp [newGame])
    · exact absurd hng (by simp [newGame])
    · rw [newGame_unfold] at hng
      split at hng
      · simp only [Except.ok.injEq, Prod.mk.injEq] at hng
        obtain ⟨hg, -⟩ := hng
        subst hg
        exact ⟨rfl, rfl⟩
      · simp only [Except.ok.injEq, Prod.mk.injEq] at hng
        obtain ⟨hg, -⟩ := hng
        subst hg
        exact absurd h21 (by assumption)
  · intro dealer deck d' dk' h
    exact dealerDraw_spec deck dealer d' dk' h
  · intro g g1 c hpt h
    rw [step_stand_playerTurn g hpt] at h
    obtain ⟨d', dk', hdd, hg, -⟩ := dealerResolve_spec g g1 c h
    subst hg
    exact ⟨d', dk', hdd, rfl⟩

/-- Witness for `blackjack_resolution` at a concrete input: a dealer
hand of 16 draws exactly one card from the deck and stands on 21. -/
theorem blackjack_resolution_witness :
    dealerDraw [(Rank.r10, Suit.hearts), (Rank.r6, Suit.clubs)] [(Rank.r5, Suit.spades)] =
      .ok ([(Rank.r10, Suit.hearts), (Rank.r6, Suit.clubs), (Rank.r5, Suit.spades)], []) ∧
    ((∃ drawn,
        [(Rank.r10, Suit.hearts), (Rank.r6, Suit.clubs), (Rank.r5, Suit.spades)] =
          [(Rank.r10, Suit.hearts), (Rank.r6, Suit.clubs)] ++ drawn ∧
        drawn ++ [] = [(Rank.r5, Suit.spades)] ∧
        (∀ k < drawn.length, calculate_hand_value
          ([(Rank.r10, Suit.hearts), (Rank.r6, Suit.clubs)] ++ drawn.take k) < 17)) ∧
      17 ≤ calculate_hand_value
        [(Rank.r10, Suit.hearts), (Rank.r6, Suit.clubs), (Rank.r5, Suit.spades)]) :=
  ⟨rfl, blackjack_resolution.2.1 [(Rank.r10, Suit.hearts), (Rank.r6, Suit.clubs)]
    [(Rank.r5, Suit.spades)] _ _ rfl⟩

/-- Claim C7: with the stake already debited at bet placement, `end_game`
credits exactly `2 × bet` on a win (net `+bet`), `1 × bet` on a push
(net 0) and nothing on a loss (net `-bet`); a settled game ignores every
further interaction with no ledger effect, so along any interaction
trace the settlement credit is applied exactly once, when the game
settles. -/
theorem blackjack_settlement_deltas :
    (∀ b : Int, settleCredit b .win = 2 * b ∧ settleCredit b .win - b = b ∧
        settleCredit b .push = b ∧ settleCredit b .push - b = 0 ∧
        settleCredit b .lose = 0 ∧ settleCredit b .lose - b = -b) ∧
    (∀ g r e, g.phase = .settled r → step g e = .ok (g, 0)) ∧
    (∀ g events g1 total, g.phase = .playerTurn →
        runGame g events = .ok (g1, total) →
        g1.bet_amount = g.bet_amount ∧
        ((g1.phase = .playerTurn ∧ total = 0) ∨
         (∃ r, g1.phase = .settled r ∧ total = settleCredit g.bet_amount r))) := by
  refine ⟨?_, fun g r e hph => step_settled g r e hph, ?_⟩
  · intro b
    refine ⟨?_, ?_, rfl, ?_, rfl, ?_⟩
    · show b * 2 = 2 * b
      ring
    · show b * 2 - b = b
      ring
    · show b - b = 0
      ring
    · show (0 : Int) - b = -b
      ring
  · intro g events
    induction events generalizing g with
    | nil =>
        intro g1 total hpt h
        simp only [runGame, Except.ok.injEq, Prod.mk.injEq] at h
        obtain ⟨hg, ht⟩ := h
        subst hg
        exact ⟨rfl, Or.inl ⟨hpt, ht.symm⟩⟩
    | cons e rest ih =>
        intro g1 total hpt h
        cases hs : step g e with
        | error er =>
            simp only [runGame, hs] at h
            exact absurd h (by simp)
        | ok pr =>
            obtain ⟨ga, ca⟩ := pr
            simp only [runGame, hs] at h
            cases hr : runGame ga rest with
            | error er => rw [hr] at h; exact absurd h (by simp)
            | ok pr2 =>
                obtain ⟨gb, cb⟩ := pr2
                rw [hr] at h
                simp only [Except.ok.injEq, Prod.mk.injEq] at h
                obtain ⟨hg, ht⟩ := h
                subst hg
                obtain ⟨hbet, -, -, hdisj⟩ := step_playerTurn_spec g e ga ca hpt hs
                rcases hdisj with ⟨hpt1, hca, -, -⟩ | ⟨r, hr1, hcr⟩
                · obtain ⟨hbet2, hdisj2⟩ := ih ga gb cb hpt1 hr
                  refine ⟨hbet2.trans hbet, ?_⟩
                  rw [hbet] at hdisj2
                  rcases hdisj2 with ⟨hp, hc0⟩ | ⟨r, hp, hc⟩
                  · exact Or.inl ⟨hp, by omega⟩
                  · exact Or.inr ⟨r, hp, by omega⟩
                · rw [runGame_settled ga r hr1 rest] at hr
                  simp only [Except.ok.injEq, Prod.mk.injEq] at hr
                  obtain ⟨hg2, hc2⟩ := hr
                  subst hg2
                  refine ⟨hbet, Or.inr ⟨r, hr1, by omega⟩⟩

/-- The concrete game used by the settlement witness: player 19,
dealer 17 (stands at once), bet 5. -/
def gBJ : BlackjackGame :=
  { deck := [(Rank.r5, Suit.hearts)],
    player_hand := [(Rank.r10, Suit.hearts), (Rank.r9, Suit.hearts)],
    dealer_hand := [(Rank.r10, Suit.spades), (Rank.r7, Suit.spades)],
    bet_amount := 5, phase := .playerTurn }

/-- The settled state the witness game reaches after a stand. -/
def gBJfin : BlackjackGame := { gBJ with phase := .settled .win }

/-- Witness for `blackjack_settlement_deltas` at a concrete input:
standing on 19 against a standing 17 wins and credits 10 = 2 × 5. -/
theorem blackjack_settlement_deltas_witness :
    gBJ.phase = .playerTurn ∧
    (gBJfin.bet_amount = gBJ.bet_amount ∧
      ((gBJfin.phase = .playerTurn ∧ (10 : Int) = 0) ∨
       (∃ r, gBJfin.phase = .settled r ∧ (10 : Int) = settleCredit gBJ.bet_amount r))) :=
  ⟨rfl, blackjack_settlement_deltas.2.2 gBJ [.stand] gBJfin 10 rfl rfl⟩

/-! ## Roulette

The Python code compares the bet choice (one of the five strings Red,
Black, Even, Odd, Green from the slash-command choices) against the spin
color (Red/Black/Green) and spin parity (Even/Odd/None) by string
equality; the embedding uses one enumeration `RWord` for those string
values, with `NoneW` standing for the string None. -/

inductive RWord
  | Red | Black | Green | Even | Odd | NoneW
deriving DecidableEq, Fintype

/-- The 18 red numbers (line 35). -/
def REDS : List Nat := [1, 3, 5, 7, 9, 12, 14, 16, 18, 19, 21, 23, 25, 27, 30, 32, 34, 36]

/-- The 18 black numbers (line 36). -/
def BLACKS : List Nat := [2, 4, 6, 8, 10, 11, 13, 15, 17, 20, 22, 24, 26, 28, 29, 31, 33, 35]

/-- Lines 754-758: `spin_color` defaults to Green, is Red if the result
is in `REDS`, else Black if in `BLACKS`.  The spin itself is
`random.randint(0, 36)` (line 752), a uniform integer in `[0, 36]`,
which the theorems model as a parameter `n ≤ 36`. -/
def spin_color (n : Nat) : RWord :=
  if n ∈ REDS then .Red else if n ∈ BLACKS then .Black else .Green

/-- Lines 760-762: parity is None for 0, else Even/Odd. -/
def spin_parity (n : Nat) : RWord :=
  if n ≠ 0 then (if n % 2 = 0 then .Even else .Odd) else .NoneW

/-- Lines 764-776: `is_win` and `payout_multiplier` — 1 for a color or
parity match, then a separate check upgrades a Green bet on a Green spin
to 35. -/
def rouletteWinMult (n : Nat) (bet : RWord) : Bool × Nat :=
  let base : Bool × Nat :=
    if bet = spin_color n then (true, 1)
    else if bet = spin_parity n then (true, 1)
    else (false, 0)
  if bet = .Green ∧ spin_color n = .Green then (true, 35) else base

/-- Lines 784-806: on a win the ledger is credited
`winnings + amount = amount * payout_multiplier + amount`; on a loss
nothing is credited (the stake was already debited). -/
def rouletteCredit (n : Nat) (bet : RWord) (amount : Int) : Int :=
  let wm := rouletteWinMult n bet
  if wm.1 then amount * (wm.2 : Int) + amount else 0

/-- Proof-side helper: the credit as a multiple of the stake. -/
def creditCoeff (n : Nat) (bet : RWord) : Int :=
  if (rouletteWinMult n bet).1 then ((rouletteWinMult n bet).2 : Int) + 1 else 0

theorem rouletteCredit_eq_coeff (n : Nat) (bet : RWord) (amount : Int) :
    rouletteCredit n bet amount = creditCoeff n bet * amount := by
  by_cases hw : (rouletteWinMult n bet).1 = true
  · simp only [rouletteCredit, creditCoeff, if_pos hw]
    ring
  · simp only [rouletteCredit, creditCoeff, if_neg hw]
    ring

theorem coeff_spec : ∀ n < 37, ∀ bet : RWord,
    creditCoeff n bet =
      if bet = .Green ∧ n = 0 then 36
      else if bet = spin_color n ∨ bet = spin_parity n then 2
      else 0 := by decide

/-- Claim C8: `REDS` and `BLACKS` partition 1..36 into 18 red and 18
black numbers with 0 the only green; parity excludes 0; and for every
landed number `n ≤ 36` and bet choice, a Green bet on 0 is credited
`36 × amount`, a bet matching the landed color or parity is credited
`2 × amount`, and any other combination is credited nothing. -/
theorem roulette_partition_and_payout :
    REDS.length = 18 ∧ BLACKS.length = 18 ∧
    (∀ n ∈ REDS, n ∉ BLACKS) ∧
    (0 : Nat) ∉ REDS ∧ (0 : Nat) ∉ BLACKS ∧
    (∀ n < 37, n ≠ 0 → (n ∈ REDS ∨ n ∈ BLACKS)) ∧
    spin_parity 0 = .NoneW ∧
    (∀ n : Nat, n ≤ 36 →
      ∀ bet ∈ [RWord.Red, RWord.Black, RWord.Even, RWord.Odd, RWord.Green],
      ∀ amount : Int,
        rouletteCredit n bet amount =
          if bet = .Green ∧ n = 0 then 36 * amount
          else if bet = spin_color n ∨ bet = spin_parity n then 2 * amount
          else 0) := by
  refine ⟨by decide, by decide, by decide, by decide, by decide, by decide, rfl, ?_⟩
  intro n hn bet _hbet amount
  rw [rouletteCredit_eq_coeff, coeff_spec n (by omega) bet]
  split_ifs
  · ring
  · ring
  · ring

/-- Witness for `roulette_partition_and_payout` at the concrete input
from the spec: number 32 is red, so a Red bet of 7 is credited 2 × 7. -/
theorem roulette_partition_and_payout_witness :
    ((32 : Nat) ≤ 36 ∧ RWord.Red ∈ [RWord.Red, RWord.Black, RWord.Even, RWord.Odd,
      RWord.Green]) ∧
    rouletteCredit 32 .Red 7 =
      (if RWord.Red = .Green ∧ (32 : Nat) = 0 then 36 * (7 : Int)
       else if RWord.Red = spin_color 32 ∨ RWord.Red = spin_parity 32 then 2 * (7 : Int)
       else 0) :=
  ⟨⟨by decide, by decide⟩,
    roulette_partition_and_payout.2.2.2.2.2.2.2 32 (by decide) .Red (by decide) 7⟩

/-! ## Horse racing -/

/-- The five horse colors, in the fixed iteration order of
`HORSE_DEFINITIONS` (lines 21-29). -/
inductive HColor
  | Red | Blue | Green | Yellow | Purple
deriving DecidableEq

/-- Line 29: `HORSE_COLORS = list(HORSE_DEFINITIONS.keys())`. -/
def HORSE_COLORS : List HColor := [.Red, .Blue, .Green, .Yellow, .Purple]

/-- Line 31. -/
def RACE_TRACK_LENGTH : Nat := 20

/-- Line 32. -/
def RACE_PAYOUT_MULTIPLIER : Int := 4

/-- One race tick (lines 308-314): iterate over the colors in fixed
order; each horse advances by its drawn move (the draw is
`random.choice([1, 1, 2, 2, 3])`, modelled as the parameter `moves`);
the first horse whose position reaches the track length wins and the
loop breaks, leaving later horses unmoved. -/
def raceTickGo (moves : HColor → Nat) :
    List HColor → (HColor → Nat) → ((HColor → Nat) × Option HColor)
  | [], pos => (pos, none)
  | c :: rest, pos =>
      let pos1 := Function.update pos c (pos c + moves c)
      if RACE_TRACK_LENGTH ≤ pos1 c then (pos1, some c)
      else raceTickGo moves rest pos1

/-- A full tick over `HORSE_COLORS`. -/
def raceTick (pos moves : HColor → Nat) : (HColor → Nat) × Option HColor :=
  raceTickGo moves HORSE_COLORS pos

/-- The `while winner is None` loop (lines 304-316), driven by a finite
list of per-tick move draws. -/
def raceRun : (HColor → Nat) → List (HColor → Nat) → ((HColor → Nat) × Option HColor)
  | pos, [] => (pos, none)
  | pos, mv :: rest =>
      match raceTick pos mv with
      | (pos1, some w) => (pos1, some w)
      | (pos1, none) => raceRun pos1 rest

/-- A row of `horse_bets` as fetched by `get_bets_for_guild`. -/
structure HorseBet where
  user : Nat
  amount : Int
  color : HColor
deriving DecidableEq

/-- The payout loop (lines 342-355): winners are credited
`bet_amount * RACE_PAYOUT_MULTIPLIER + bet_amount` via `update_balance`;
losers receive no credit. -/
def raceCredits (winner : HColor) (bets : List HorseBet) : List (Nat × Int) :=
  bets.filterMap (fun x =>
    if x.color = winner then
      some (x.user, x.amount * RACE_PAYOUT_MULTIPLIER + x.amount)
    else none)

/-- Race resolution: the credits applied, and the guild's bet table
afterwards — `clear_bets_for_guild` (line 360) empties it. -/
def raceResolve (winner : HColor) (bets : List HorseBet) :
    List (Nat × Int) × List HorseBet :=
  (raceCredits winner bets, [])

/-- Total amount credited to one user by a list of ledger credits. -/
def creditTo : List (Nat × Int) → Nat → Int
  | [], _ => 0
  | p :: rest, u => (if p.1 = u then p.2 else 0) + creditTo rest u

theorem raceTickGo_frame (moves : HColor → Nat) :
    ∀ (l : List HColor) (pos pos' : HColor → Nat) (res : Option HColor),
      raceTickGo moves l pos = (pos', res) →
      ∀ c, c ∉ l → pos' c = pos c := by
  intro l
  induction l with
  | nil =>
      intro pos pos' res h c _
      simp only [raceTickGo, Prod.mk.injEq] at h
      rw [← h.1]
  | cons c0 rest ih =>
      intro pos pos' res h c hc
      simp only [List.mem_cons, not_or] at hc
      obtain ⟨hne, hnrest⟩ := hc
      simp only [raceTickGo] at h
      split at h
      · simp only [Prod.mk.injEq] at h
        rw [← h.1, Function.update_noteq hne]
      · rw [ih _ _ _ h c hnrest, Function.update_noteq hne]

theorem raceTickGo_spec (moves : HColor → Nat) :
    ∀ (l : List HColor) (pos pos' : HColor → Nat) (w : HColor),
      l.Nodup →
      raceTickGo moves l pos = (pos', some w) →
      ∃ pre post, l = pre ++ w :: post ∧
        pos' w = pos w + moves w ∧
        RACE_TRACK_LENGTH ≤ pos' w ∧
        (∀ c ∈ pre, pos' c = pos c + moves c ∧ pos' c < RACE_TRACK_LENGTH) ∧
        (∀ c ∈ post, pos' c = pos c) := by
  intro l
  induction l with
  | nil =>
      intro pos pos' w _ h
      simp [raceTickGo] at h
  | cons c0 rest ih =>
      intro pos pos' w hnd h
      simp only [List.nodup_cons] at hnd
      obtain ⟨hc0, hndr⟩ := hnd
      simp only [raceTickGo] at h
      split at h
      · simp only [Prod.mk.injEq, Option.some.injEq] at h
        obtain ⟨hpos, hw⟩ := h
        subst hw
        refine ⟨[], rest, by simp, ?_, ?_, by simp, ?_⟩
        · rw [← hpos, Function.update_same]
        · rw [← hpos]
          assumption
        · intro c hcr
          have hne : c ≠ c0 := fun he => hc0 (he ▸ hcr)
          rw [← hpos, Function.update_noteq hne]
      · obtain ⟨pre, post, hsplit, hw, hL, hpre, hpost⟩ := ih _ _ _ hndr h
        have hwrest : w ∈ rest := by rw [hsplit]; simp
        have hwne : w ≠ c0 := fun he => hc0 (he ▸ hwrest)
        refine ⟨c0 :: pre, post, by rw [hsplit]; rfl, ?_, hL, ?_, ?_⟩
        · rw [hw, Function.update_noteq hwne]
        · intro c hcp
          rcases List.mem_cons.mp hcp with hce | hcpre
          · subst hce
            have hcnr : c ∉ rest := hc0
            constructor
            · rw [raceTickGo_frame moves rest _ _ _ h c hcnr, Function.update_same]
            · rw [raceTickGo_frame moves rest _ _ _ h c hcnr, Function.update_same]
              have hupd := Function.update_same c (pos c + moves c) pos
              omega
          · have hcr : c ∈ rest := by rw [hsplit]; exact List.mem_append_left _ hcpre
            have hne : c ≠ c0 := fun he => hc0 (he ▸ hcr)
            obtain ⟨h1, h2⟩ := hpre c hcpre
            rw [Function.update_noteq hne] at h1
            exact ⟨h1, h2⟩
        · intro c hcpost
          have hcr : c ∈ rest := by
            rw [hsplit]
            exact List.mem_append_right _ (List.mem_cons_of_mem _ hcpost)
          have hne : c ≠ c0 := fun he => hc0 (he ▸ hcr)
          rw [hpost c hcpost, Function.update_noteq hne]

theorem creditTo_not_mem (w : HColor) (u : Nat) :
    ∀ bets : List HorseBet, u ∉ bets.map HorseBet.user →
      creditTo (raceCredits w bets) u = 0 := by
  intro bets
  induction bets with
  | nil => intro _; rfl
  | cons b0 t ih =>
      intro hu
      simp only [List.map_cons, List.mem_cons, not_or] at hu
      obtain ⟨hne, hnotin⟩ := hu
      unfold raceCredits at ih ⊢
      simp only [List.filterMap_cons]
      by_cases hc : b0.color = w
      · simp only [if_pos hc]
        show (if b0.user = u then b0.amount * RACE_PAYOUT_MULTIPLIER + b0.amount else 0) +
          creditTo (List.filterMap _ t) u = 0
        rw [if_neg (fun he => hne he.symm), ih hnotin]
        ring
      · simp only [if_neg hc]
        exact ih hnotin

theorem creditTo_raceCredits (w : HColor) :
    ∀ bets : List HorseBet, (bets.map HorseBet.user).Nodup →
      ∀ b ∈ bets, creditTo (raceCredits w bets) b.user =
        if b.color = w then b.amount * RACE_PAYOUT_MULTIPLIER + b.amount else 0 := by
  intro bets
  induction bets with
  | nil => intro _ b hb; simp at hb
  | cons b0 t ih =>
      intro hnd b hb
      simp only [List.map_cons, List.nodup_cons] at hnd
      obtain ⟨hn0, hndt⟩ := hnd
      rcases List.mem_cons.mp hb with hb0 | hbt
      · subst hb0
        unfold raceCredits
        simp only [List.filterMap_cons]
        by_cases hc : b.color = w
        · simp only [if_pos hc]
          show (if b.user = b.user then b.amount * RACE_PAYOUT_MULTIPLIER + b.amount
            else 0) + creditTo (List.filterMap _ t) b.user = _
          rw [if_pos rfl]
          have h0 := creditTo_not_mem w b.user t hn0
          unfold raceCredits at h0
          rw [h0]
          ring
        · simp only [if_neg hc]
          have h0 := creditTo_not_mem w b.user t hn0
          unfold raceCredits at h0
          exact h0
      · unfold raceCredits
        simp only [List.filterMap_cons]
        by_cases hc : b0.color = w
        · simp only [if_pos hc]
          have hne : b0.user ≠ b.user :=
            fun he => hn0 (he ▸ List.mem_map_of_mem HorseBet.user hbt)
          show (if b0.user = b.user then b0.amount * RACE_PAYOUT_MULTIPLIER + b0.amount
            else 0) + creditTo (List.filterMap _ t) b.user = _
          rw [if_neg hne]
          have hrec := ih hndt b hbt
          unfold raceCredits at hrec
          rw [hrec]
          ring
        · simp only [if_neg hc]
          have hrec := ih hndt b hbt
          unfold raceCredits at hrec
          exact hrec

/-- Claim C9: when a tick ends the race, the declared winner is the
first horse in the fixed iteration order whose position reaches the
track length in that tick — earlier horses advanced but stayed short of
the track length and later horses did not advance at all; the race loop
only ever declares a winner produced by such a tick; every bettor on the
winning color is credited exactly `bet × RACE_PAYOUT_MULTIPLIER + bet`
while other bettors receive no credit; and the guild's bet table is
empty after resolution. -/
theorem horse_race_winner_and_payout :
    (∀ pos moves pos' w, raceTick pos moves = (pos', some w) →
      ∃ pre post, HORSE_COLORS = pre ++ w :: post ∧
        pos' w = pos w + moves w ∧
        RACE_TRACK_LENGTH ≤ pos' w ∧
        (∀ c ∈ pre, pos' c = pos c + moves c ∧ pos' c < RACE_TRACK_LENGTH) ∧
        (∀ c ∈ post, pos' c = pos c)) ∧
    (∀ pos mvs pos' w, raceRun pos mvs = (pos', some w) →
      ∃ posPre mv, raceTick posPre mv = (pos', some w)) ∧
    (∀ winner bets, (bets.map HorseBet.user).Nodup →
      ∀ b ∈ bets, creditTo (raceCredits winner bets) b.user =
        if b.color = winner then b.amount * RACE_PAYOUT_MULTIPLIER + b.amount else 0) ∧
    (∀ winner bets, (raceResolve winner bets).2 = []) := by
  refine ⟨?_, ?_, creditTo_raceCredits, fun winner bets => rfl⟩
  · intro pos moves pos' w h
    exact raceTickGo_spec moves HORSE_COLORS pos pos' w (by decide) h
  · intro pos mvs
    induction mvs generalizing pos with
    | nil =>
        intro pos' w h
        simp [raceRun] at h
    | cons mv rest ih =>
        intro pos' w h
        unfold raceRun at h
        cases ht : raceTick pos mv with
        | mk pos1 res =>
            rw [ht] at h
            cases res with
            | some w1 =>
                simp only [Prod.mk.injEq, Option.some.injEq] at h
                obtain ⟨hp, hw⟩ := h
                subst hp; subst hw
                exact ⟨pos, mv, ht⟩
            | none => exact ih pos1 pos' w h

/-- All-18 positions and all-2 moves for the payout witness: the Red
horse (first in iteration order) reaches 20 and wins; bettor 1 backed
Red with 10 and is credited 50, bettor 2 backed Blue and gets nothing. -/
def posW : HColor → Nat := fun _ => 18

/-- The witness move draw: every horse would advance by 2. -/
def movW : HColor → Nat := fun _ => 2

/-- The positions after the witness tick. -/
def posW' : HColor → Nat := (raceTick posW movW).1

/-- The witness bets. -/
def betsW : List HorseBet := [⟨1, 10, .Red⟩, ⟨2, 5, .Blue⟩]

/-- Witness for `horse_race_winner_and_payout` at a concrete input. -/
theorem horse_race_winner_and_payout_witness :
    (∃ pre post, HORSE_COLORS = pre ++ HColor.Red :: post ∧
      posW' HColor.Red = posW HColor.Red + movW HColor.Red ∧
      RACE_TRACK_LENGTH ≤ posW' HColor.Red ∧
      (∀ c ∈ pre, posW' c = posW c + movW c ∧ posW' c < RACE_TRACK_LENGTH) ∧
      (∀ c ∈ post, posW' c = posW c)) ∧
    creditTo (raceCredits HColor.Red betsW) 1 =
      (if HColor.Red = HColor.Red then (10 : Int) * RACE_PAYOUT_MULTIPLIER + 10
       else 0) :=
  ⟨horse_race_winner_and_payout.1 posW movW posW' HColor.Red rfl,
   horse_race_winner_and_payout.2.2.1 HColor.Red betsW (by decide)
     ⟨1, 10, .Red⟩ (by decide)⟩

end ROT
